import Mathlib

/-!
# chardet: the detection orchestrator (`detector.go`)

A shallow embedding of `Detector.DetectAll` and `Detector.DetectBest`.

* Go's `int` Confidence is an `Int`; the code only compares it, so no
  overflow is involved.
* A `[]byte` buffer is a `List (Fin 256)`.
* A Go result pair `(value, error)` is a Lean pair whose second component
  is an `Option error` (`none` is the nil error); a nil slice is `[]` and a
  nil `*Result` is `none`.
* The two sources of nondeterminism of `DetectAll` are explicit arguments:
  the order in which the channel delivers the goroutines' sends
  (`Schedule`) and the result of the unstable `sort.Sort` (`Sorter`).
-/

namespace chardet

/-! ## Data model -/

/-- Result contains all the information that charset detector gives. -/
structure Result where
  /-- IANA name of the detected charset. -/
  Charset : String
  /-- IANA name of the detected language. It may be empty for some charsets. -/
  Language : String
  /-- Confidence of the Result (a Go `int`). -/
  Confidence : Int
deriving DecidableEq, Repr

/-- The type `recognizerOutput` is declared outside `detector.go`. The
conversion `Result(o)` in `DetectAll` is only legal when both types have the
same underlying struct, and the code reads `o.Charset` and `o.Confidence`;
the conversion is therefore the identity on the three fields. -/
abbrev recognizerOutput := Result

/-- A byte buffer (`[]byte`). -/
abbrev Bytes := List (Fin 256)

/-- Modelled from the spec: the analysis input built by `newRecognizerInput`,
which is declared outside `detector.go`. The spec (§3, AnalysisInput) makes it
an immutable value determined by the caller's bytes and the markup flag, all
other fields being derived from these two. -/
structure recognizerInput where
  raw : Bytes
  stripTag : Bool
deriving DecidableEq, Repr

/-- Modelled from the spec: the input constructor called at the first line of
`DetectAll`; it records the buffer and the markup flag it is given. -/
def newRecognizerInput (b : Bytes) (stripTag : Bool) : recognizerInput :=
  ⟨b, stripTag⟩

/-- The interface `recognizer` (declared outside `detector.go`): the single
method `Match`, used by `matchHelper`. -/
structure recognizer where
  Match : recognizerInput → recognizerOutput

/-- Detector implements charset detection. -/
structure Detector where
  recognizers : List recognizer
  stripTag : Bool

/-- The error values of the package; the nil error is `none` where an error is
returned. -/
inductive error where
  /-- ErrorNotDetected is error message if charset not detected -/
  | ErrorNotDetected
deriving DecidableEq, Repr

/-- NewTextDetector creates a Detector for plain text. The package-level roster
`recognizers` is built from constructors that are not in `detector.go`, so it
is a parameter. -/
def NewTextDetector (recognizers : List recognizer) : Detector :=
  ⟨recognizers, false⟩

/-- NewHTMLDetector creates a Detector for HTML (same roster parameter). -/
def NewHTMLDetector (recognizers : List recognizer) : Detector :=
  ⟨recognizers, true⟩

/-! ## `recognizerOutputs`: the `sort.Interface` handed to `sort.Sort` -/

/-- The method `Len` of `recognizerOutputs`. -/
def recognizerOutputs.Len (r : List recognizerOutput) : Nat := r.length

/-- The method `Less` of `recognizerOutputs`: `r[i].Confidence > r[j].Confidence`.
Out of range indices (a panic in Go, never produced by `sort.Sort`) give
`false`. -/
def recognizerOutputs.Less (r : List recognizerOutput) (i j : Nat) : Bool :=
  match r[i]?, r[j]? with
  | some a, some b => decide (a.Confidence > b.Confidence)
  | _, _ => false

/-- The method `Swap` of `recognizerOutputs`: `r[i], r[j] = r[j], r[i]`. -/
def recognizerOutputs.Swap (r : List recognizerOutput) (i j : Nat) :
    List recognizerOutput :=
  match r[i]?, r[j]? with
  | some a, some b => (r.set i b).set j a
  | _, _ => r

/-! ## The two oracles -/

/-- The order in which the receive loop of `DetectAll` gets the values sent by
the goroutines: each goroutine sends exactly once on the unbuffered channel, so
the received sequence is some permutation of the sent values. -/
structure Schedule where
  order : List recognizerOutput → List recognizerOutput
  perm : ∀ sent, (order sent).Perm sent

/-- A possible behaviour of `sort.Sort` on `recognizerOutputs`: it rearranges
the slice (only through `Swap`) so that afterwards no later element is `Less`
than an earlier one. Stability is not promised. -/
structure Sorter where
  sort : List recognizerOutput → List recognizerOutput
  perm : ∀ data, (sort data).Perm data
  sorted : ∀ data i j, i < j → j < recognizerOutputs.Len (sort data) →
    recognizerOutputs.Less (sort data) j i = false

/-! ## `DetectAll` and `DetectBest` -/

/-- The value `matchHelper` sends on the channel: `r.Match(input)`. -/
def matchHelper (r : recognizer) (input : recognizerInput) : recognizerOutput :=
  r.Match input

/-- The values sent on the channel for detector `d` and buffer `b`, listed in
roster order. -/
def sentOutputs (d : Detector) (b : Bytes) : List recognizerOutput :=
  d.recognizers.map (fun r => matchHelper r (newRecognizerInput b d.stripTag))

/-- One iteration of the receive loop: `if o.Confidence > 0 { outputs =
append(outputs, o) }`. -/
def receiveStep (outputs : List recognizerOutput) (o : recognizerOutput) :
    List recognizerOutput :=
  if o.Confidence > 0 then outputs ++ [o] else outputs

/-- One iteration of the deduplication loop. The state is the pair
`(dedupOutputs, foundCharsets)`; the Go map used as a set is a list of keys. -/
def dedupStep (st : List Result × List String) (o : recognizerOutput) :
    List Result × List String :=
  if o.Charset ∈ st.2 then st else (st.1 ++ [o], o.Charset :: st.2)

/-- DetectAll returns all Results which have non-zero Confidence. The Results
are sorted by Confidence in descending order. (Doc comment of the source.) -/
def DetectAll (d : Detector) (b : Bytes) (sched : Schedule) (srt : Sorter) :
    List Result × Option error :=
  let received := sched.order (sentOutputs d b)
  let outputs := received.foldl receiveStep []
  if outputs.length = 0 then ([], some error.ErrorNotDetected)
  else
    let outputs := srt.sort outputs
    let dedupOutputs := (outputs.foldl dedupStep ([], [])).1
    if dedupOutputs.length = 0 then ([], some error.ErrorNotDetected)
    else (dedupOutputs, none)

/-- DetectBest returns the Result with highest Confidence. (Doc comment of the
source.) The outer `Option` is `none` when `all[0]` is out of range, a run-time
panic in Go. -/
def DetectBest (d : Detector) (b : Bytes) (sched : Schedule) (srt : Sorter) :
    Option (Option Result × Option error) :=
  match DetectAll d b sched srt with
  | (all, none) =>
    match all[0]? with
    | some r => some (some r, none)
    | none => none
  | (_, some err) => some (none, some err)

/-! ## Concrete schedules, sorters and detectors -/

/-- Descending order on Confidence, the order `sort.Sort` establishes. -/
def confGE (a b : recognizerOutput) : Prop := a.Confidence ≥ b.Confidence

instance : DecidableRel confGE := fun a b => by unfold confGE; infer_instance

instance : IsTotal recognizerOutput confGE := ⟨fun a b => by unfold confGE; omega⟩

instance : IsTrans recognizerOutput confGE :=
  ⟨fun a b c h1 h2 => by unfold confGE at *; omega⟩

/-- Builds a `Sorter` from a function whose result is a permutation of its
argument in descending order of Confidence. -/
def Sorter.ofDescending (f : List recognizerOutput → List recognizerOutput)
    (hperm : ∀ data, (f data).Perm data)
    (hdesc : ∀ data, (f data).Pairwise confGE) : Sorter where
  sort := f
  perm := hperm
  sorted := by
    intro data i j hij hj
    unfold recognizerOutputs.Len at hj
    have hi : i < (f data).length := by omega
    have h := List.pairwise_iff_getElem.mp (hdesc data) i j hi hj hij
    unfold recognizerOutputs.Less
    rw [List.getElem?_eq_getElem hj, List.getElem?_eq_getElem hi]
    unfold confGE at h
    simp only [gt_iff_lt, decide_eq_false_iff_not, not_lt]
    exact h

/-- The goroutines are received in roster order. -/
def fifoSchedule : Schedule := ⟨fun sent => sent, fun sent => List.Perm.refl sent⟩

/-- The goroutines are received in reverse roster order. -/
def lifoSchedule : Schedule := ⟨List.reverse, fun sent => List.reverse_perm sent⟩

/-- A stable sort: insertion sort by descending Confidence. -/
def stableSorter : Sorter :=
  Sorter.ofDescending (List.insertionSort confGE)
    (fun data => List.perm_insertionSort confGE data)
    (fun data => List.sorted_insertionSort confGE data)

/-- A sort that reverses the order of equal-Confidence elements. -/
def reversingSorter : Sorter :=
  Sorter.ofDescending (fun data => List.insertionSort confGE data.reverse)
    (fun data => (List.perm_insertionSort confGE data.reverse).trans (List.reverse_perm data))
    (fun data => List.sorted_insertionSort confGE data.reverse)

/-- A recognizer that answers `o` on every input. -/
def constRecognizer (o : recognizerOutput) : recognizer := ⟨fun _ => o⟩

/-- A small roster: two languages of one charset, a second charset tied with
one of them, and a recognizer that finds nothing. -/
def sampleDetector : Detector :=
  ⟨[constRecognizer ⟨"ISO 8859-1", "en", 25⟩,
    constRecognizer ⟨"UTF-8", "", 10⟩,
    constRecognizer ⟨"ISO 8859-1", "fr", 40⟩,
    constRecognizer ⟨"UTF-16BE", "", 0⟩,
    constRecognizer ⟨"Shift_JIS", "ja", 25⟩], false⟩

/-- The deduplication loop in recursive form: scan `l`, keep an element when
its Charset is not among `found`, and remember its Charset. -/
def keepFirst : List String → List recognizerOutput → List Result
  | _, [] => []
  | found, o :: l =>
    if o.Charset ∈ found then keepFirst found l
    else o :: keepFirst (o.Charset :: found) l

/-- Two languages of one charset tied at the same Confidence. -/
def tieDetector : Detector :=
  ⟨[constRecognizer ⟨"ISO 8859-1", "en", 25⟩,
    constRecognizer ⟨"ISO 8859-1", "fr", 25⟩], true⟩

/-- A roster whose only recognizer answers a negative Confidence. -/
def negativeDetector : Detector :=
  ⟨[constRecognizer ⟨"UTF-8", "", -1⟩], false⟩

/-- The ranking every run of `DetectAll` returns for `sampleDetector`. -/
def sampleRanking : List Result :=
  [⟨"ISO 8859-1", "fr", 40⟩, ⟨"Shift_JIS", "ja", 25⟩, ⟨"UTF-8", "", 10⟩]

/-- A roster without ties among its positive Confidences. -/
def distinctDetector : Detector :=
  ⟨[constRecognizer ⟨"ISO 8859-1", "en", 25⟩,
    constRecognizer ⟨"UTF-8", "", 10⟩,
    constRecognizer ⟨"ISO 8859-1", "fr", 40⟩,
    constRecognizer ⟨"UTF-16BE", "", 0⟩], true⟩

/-- The outputs that pass the filter `o.Confidence > 0` of the receive loop,
in the order of arrival. -/
def positiveOutputs (d : Detector) (b : Bytes) (sched : Schedule) :
    List recognizerOutput :=
  (sched.order (sentOutputs d b)).filter (fun o => decide (o.Confidence > 0))

/-! ## The package-level roster -/

/-- The values of the forty recognizer constructors called in the package-level
list `recognizers`. The constructors are declared outside `detector.go`, so
their results are parameters, one field per call, named as in the source. -/
structure recognizerConstructors where
  newRecognizerUTF8 : recognizer
  newRecognizerUTF16be : recognizer
  newRecognizerUTF16le : recognizer
  newRecognizerUTF32be : recognizer
  newRecognizerUTF32le : recognizer
  newRecognizer8859m1en : recognizer
  newRecognizer8859m1da : recognizer
  newRecognizer8859m1de : recognizer
  newRecognizer8859m1es : recognizer
  newRecognizer8859m1fr : recognizer
  newRecognizer8859m1it : recognizer
  newRecognizer8859m1nl : recognizer
  newRecognizer8859m1no : recognizer
  newRecognizer8859m1pt : recognizer
  newRecognizer8859m1sv : recognizer
  newRecognizer8859m2cs : recognizer
  newRecognizer8859m2hu : recognizer
  newRecognizer8859m2pl : recognizer
  newRecognizer8859m2ro : recognizer
  newRecognizer8859m5ru : recognizer
  newRecognizer8859m6ar : recognizer
  newRecognizer8859m7el : recognizer
  newRecognizer8859m8Ihe : recognizer
  newRecognizer8859m8he : recognizer
  newRecognizerWindows1251 : recognizer
  newRecognizerWindows1256 : recognizer
  newRecognizerKOI8R : recognizer
  newRecognizer8859m9tr : recognizer
  newRecognizersjis : recognizer
  newRecognizerGB18030 : recognizer
  newRecognizereucJp : recognizer
  newRecognizereucKr : recognizer
  newRecognizerbig5 : recognizer
  newRecognizer2022JP : recognizer
  newRecognizer2022KR : recognizer
  newRecognizer2022CN : recognizer
  newRecognizerIBM424HeRTL : recognizer
  newRecognizerIBM424HeLTR : recognizer
  newRecognizerIBM420ArRTL : recognizer
  newRecognizerIBM420ArLTR : recognizer

/-- List of charset recognizers (the package-level variable `recognizers`), in
the order of the source. -/
def recognizers (c : recognizerConstructors) : List recognizer :=
  [c.newRecognizerUTF8,
   c.newRecognizerUTF16be,
   c.newRecognizerUTF16le,
   c.newRecognizerUTF32be,
   c.newRecognizerUTF32le,
   c.newRecognizer8859m1en,
   c.newRecognizer8859m1da,
   c.newRecognizer8859m1de,
   c.newRecognizer8859m1es,
   c.newRecognizer8859m1fr,
   c.newRecognizer8859m1it,
   c.newRecognizer8859m1nl,
   c.newRecognizer8859m1no,
   c.newRecognizer8859m1pt,
   c.newRecognizer8859m1sv,
   c.newRecognizer8859m2cs,
   c.newRecognizer8859m2hu,
   c.newRecognizer8859m2pl,
   c.newRecognizer8859m2ro,
   c.newRecognizer8859m5ru,
   c.newRecognizer8859m6ar,
   c.newRecognizer8859m7el,
   c.newRecognizer8859m8Ihe,
   c.newRecognizer8859m8he,
   c.newRecognizerWindows1251,
   c.newRecognizerWindows1256,
   c.newRecognizerKOI8R,
   c.newRecognizer8859m9tr,
   c.newRecognizersjis,
   c.newRecognizerGB18030,
   c.newRecognizereucJp,
   c.newRecognizereucKr,
   c.newRecognizerbig5,
   c.newRecognizer2022JP,
   c.newRecognizer2022KR,
   c.newRecognizer2022CN,
   c.newRecognizerIBM424HeRTL,
   c.newRecognizerIBM424HeLTR,
   c.newRecognizerIBM420ArRTL,
   c.newRecognizerIBM420ArLTR]

/-! ## First occurrences, as the specification words them -/

/-- The subsequence of `l` made of the elements that no element with the same
Charset precedes in `l`: the element at position `i` is kept exactly when all
the elements at the positions before `i` have a different Charset. -/
def firstOccurrences (l : List recognizerOutput) : List Result :=
  (l.enum.filter
    (fun p => (l.take p.1).all (fun q => decide (q.Charset ≠ p.2.Charset)))).map Prod.snd

/-- The recognizer outputs for `d` and `b` with Confidence > 0, in roster
order. -/
def positiveSent (d : Detector) (b : Bytes) : List recognizerOutput :=
  (sentOutputs d b).filter (fun o => decide (o.Confidence > 0))

/-- The positive recognizer outputs arranged in descending order of Confidence
(by insertion sort from roster order). -/
def descendingOrdering (d : Detector) (b : Bytes) : List recognizerOutput :=
  List.insertionSort confGE (positiveSent d b)

/-! ## The loops as list functions -/

theorem receive_foldl (l acc : List recognizerOutput) :
    l.foldl receiveStep acc = acc ++ l.filter (fun o => decide (o.Confidence > 0)) := by
  induction l generalizing acc with
  | nil => simp
  | cons o l ih =>
    rw [List.foldl_cons, ih]
    by_cases h : o.Confidence > 0
    · simp [receiveStep, h, List.filter_cons]
    · simp [receiveStep, h, List.filter_cons]

theorem dedup_foldl (l : List recognizerOutput) (acc : List Result) (found : List String) :
    (l.foldl dedupStep (acc, found)).1 = acc ++ keepFirst found l := by
  induction l generalizing acc found with
  | nil => simp [keepFirst]
  | cons o l ih =>
    rw [List.foldl_cons]
    by_cases h : o.Charset ∈ found
    · simp [dedupStep, h, keepFirst, ih]
    · simp [dedupStep, h, keepFirst, ih]

theorem keepFirst_sublist (found : List String) (l : List recognizerOutput) :
    (keepFirst found l).Sublist l := by
  induction l generalizing found with
  | nil => simp [keepFirst]
  | cons o l ih =>
    unfold keepFirst
    split
    · exact (ih found).cons o
    · exact (ih (o.Charset :: found)).cons₂ o

theorem keepFirst_not_found (found : List String) (l : List recognizerOutput) :
    ∀ r ∈ keepFirst found l, r.Charset ∉ found := by
  induction l generalizing found with
  | nil => simp [keepFirst]
  | cons o l ih =>
    intro r hr
    unfold keepFirst at hr
    split at hr
    · exact ih found r hr
    · rename_i hnot
      rcases List.mem_cons.mp hr with h | h
      · rw [h]; exact hnot
      · exact fun hmem => ih (o.Charset :: found) r h (List.mem_cons_of_mem _ hmem)

theorem keepFirst_nodup (found : List String) (l : List recognizerOutput) :
    ((keepFirst found l).map Result.Charset).Nodup := by
  induction l generalizing found with
  | nil => simp [keepFirst]
  | cons o l ih =>
    unfold keepFirst
    split
    · exact ih found
    · rw [List.map_cons, List.nodup_cons]
      refine ⟨?_, ih (o.Charset :: found)⟩
      intro hmem
      obtain ⟨r, hr, hrc⟩ := List.mem_map.mp hmem
      exact keepFirst_not_found (o.Charset :: found) l r hr (by rw [hrc]; exact List.mem_cons_self _ _)

/-- Every Charset of the scanned list that is not yet in `found` is
represented in the kept list, by an element that is at least as confident
when the scanned list is in descending order. -/
theorem keepFirst_covers (found : List String) (l : List recognizerOutput)
    (hs : l.Pairwise confGE) (o : recognizerOutput) (ho : o ∈ l)
    (hnew : o.Charset ∉ found) :
    ∃ r ∈ keepFirst found l, r.Charset = o.Charset ∧ r.Confidence ≥ o.Confidence := by
  induction l generalizing found with
  | nil => simp at ho
  | cons x l ih =>
    rw [List.pairwise_cons] at hs
    unfold keepFirst
    split
    · rename_i hx
      rcases List.mem_cons.mp ho with h | h
      · rw [h] at hnew; exact absurd hx hnew
      · exact ih found hs.2 h hnew
    · by_cases hc : o.Charset = x.Charset
      · refine ⟨x, List.mem_cons_self _ _, hc.symm, ?_⟩
        rcases List.mem_cons.mp ho with h | h
        · rw [h]
        · exact hs.1 o h
      · rcases List.mem_cons.mp ho with h | h
        · rw [h] at hc; exact absurd rfl hc
        · have hnew2 : o.Charset ∉ x.Charset :: found := by
            intro hm
            rcases List.mem_cons.mp hm with h1 | h1
            · exact hc h1
            · exact hnew h1
          obtain ⟨r, hr, h1, h2⟩ := ih (x.Charset :: found) hs.2 h hnew2
          exact ⟨r, List.mem_cons_of_mem _ hr, h1, h2⟩

theorem keepFirst_nil_cons (x : recognizerOutput) (l : List recognizerOutput) :
    keepFirst [] (x :: l) = x :: keepFirst [x.Charset] l := by
  simp [keepFirst]

/-! ## The oracles -/

theorem Sorter.pairwise (srt : Sorter) (data : List recognizerOutput) :
    (srt.sort data).Pairwise confGE := by
  rw [List.pairwise_iff_getElem]
  intro i j hi hj hij
  have h := srt.sorted data i j hij hj
  unfold recognizerOutputs.Less at h
  rw [List.getElem?_eq_getElem hj, List.getElem?_eq_getElem hi] at h
  simp only [gt_iff_lt, decide_eq_false_iff_not, not_lt] at h
  exact h

theorem Sorter.mem_sort (srt : Sorter) (data : List recognizerOutput)
    (o : recognizerOutput) : o ∈ srt.sort data ↔ o ∈ data :=
  (srt.perm data).mem_iff

theorem mem_positiveOutputs (d : Detector) (b : Bytes) (sched : Schedule)
    (o : recognizerOutput) :
    o ∈ positiveOutputs d b sched ↔ o ∈ sentOutputs d b ∧ 0 < o.Confidence := by
  unfold positiveOutputs
  rw [List.mem_filter, (sched.perm (sentOutputs d b)).mem_iff]
  simp

theorem mem_sorted_positive (d : Detector) (b : Bytes) (sched : Schedule) (srt : Sorter)
    (o : recognizerOutput) :
    o ∈ srt.sort (positiveOutputs d b sched) ↔ o ∈ sentOutputs d b ∧ 0 < o.Confidence := by
  rw [Sorter.mem_sort, mem_positiveOutputs]

theorem keepFirst_ne_nil (l : List recognizerOutput) (h : l ≠ []) : keepFirst [] l ≠ [] := by
  cases l with
  | nil => exact absurd rfl h
  | cons x l => rw [keepFirst_nil_cons]; exact List.cons_ne_nil _ _

theorem Sorter.sort_ne_nil (srt : Sorter) (data : List recognizerOutput) (h : data ≠ []) :
    srt.sort data ≠ [] := by
  intro h0
  have := (srt.perm data).length_eq
  rw [h0] at this
  exact h (List.length_eq_zero.mp this.symm)

/-! ## `DetectAll` in closed form -/

theorem DetectAll_eq (d : Detector) (b : Bytes) (sched : Schedule) (srt : Sorter) :
    DetectAll d b sched srt =
      if positiveOutputs d b sched = [] then ([], some error.ErrorNotDetected)
      else (keepFirst [] (srt.sort (positiveOutputs d b sched)), none) := by
  unfold DetectAll
  simp only [receive_foldl, dedup_foldl, List.nil_append, List.length_eq_zero]
  by_cases h : positiveOutputs d b sched = []
  · unfold positiveOutputs at h
    simp [positiveOutputs, h]
  · have h2 := keepFirst_ne_nil _ (Sorter.sort_ne_nil srt _ h)
    unfold positiveOutputs at h h2
    simp [positiveOutputs, h, h2]

/-- On success the returned slice is the deduplicated sorted list. -/
theorem DetectAll_ok (d : Detector) (b : Bytes) (sched : Schedule) (srt : Sorter)
    (res : List Result) (h : DetectAll d b sched srt = (res, none)) :
    positiveOutputs d b sched ≠ [] ∧
      res = keepFirst [] (srt.sort (positiveOutputs d b sched)) := by
  rw [DetectAll_eq] at h
  split at h
  · simp at h
  · rename_i hne
    simp only [Prod.mk.injEq, and_true] at h
    exact ⟨hne, h.symm⟩

/-- The slice component of the result is the deduplicated sorted list in every
case (it is empty when detection fails). -/
theorem DetectAll_fst (d : Detector) (b : Bytes) (sched : Schedule) (srt : Sorter) :
    (DetectAll d b sched srt).1 = keepFirst [] (srt.sort (positiveOutputs d b sched)) := by
  rw [DetectAll_eq]
  split
  · rename_i h
    have h0 : srt.sort (positiveOutputs d b sched) = [] := by
      have hl := (srt.perm (positiveOutputs d b sched)).length_eq
      apply List.length_eq_zero.mp
      rw [hl, h]; rfl
    rw [h0]; simp [keepFirst]
  · rfl

theorem mem_DetectAll (d : Detector) (b : Bytes) (sched : Schedule) (srt : Sorter)
    (r : Result) (hr : r ∈ (DetectAll d b sched srt).1) :
    r ∈ sentOutputs d b ∧ 0 < r.Confidence := by
  rw [DetectAll_fst] at hr
  exact (mem_sorted_positive d b sched srt r).mp ((keepFirst_sublist _ _).subset hr)

theorem DetectAll_pairwise (d : Detector) (b : Bytes) (sched : Schedule) (srt : Sorter) :
    (DetectAll d b sched srt).1.Pairwise confGE := by
  rw [DetectAll_fst]
  exact (Sorter.pairwise srt _).sublist (keepFirst_sublist _ _)

theorem DetectAll_nodup (d : Detector) (b : Bytes) (sched : Schedule) (srt : Sorter) :
    ((DetectAll d b sched srt).1.map Result.Charset).Nodup := by
  rw [DetectAll_fst]
  exact keepFirst_nodup _ _

/-- Every positive output has its Charset represented in the result by an
element at least as confident. -/
theorem DetectAll_covers (d : Detector) (b : Bytes) (sched : Schedule) (srt : Sorter)
    (o : recognizerOutput) (ho : o ∈ sentOutputs d b) (hpos : 0 < o.Confidence) :
    ∃ r ∈ (DetectAll d b sched srt).1, r.Charset = o.Charset ∧ r.Confidence ≥ o.Confidence := by
  rw [DetectAll_fst]
  exact keepFirst_covers [] _ (Sorter.pairwise srt _) o
    ((mem_sorted_positive d b sched srt o).mpr ⟨ho, hpos⟩) (List.not_mem_nil _)

theorem charset_unique (l : List Result) (hn : (l.map Result.Charset).Nodup)
    (r r2 : Result) (hr : r ∈ l) (hr2 : r2 ∈ l) (hc : r.Charset = r2.Charset) : r = r2 := by
  induction l with
  | nil => simp at hr
  | cons x l ih =>
    rw [List.map_cons, List.nodup_cons] at hn
    rcases List.mem_cons.mp hr with h | h <;> rcases List.mem_cons.mp hr2 with h2 | h2
    · rw [h, h2]
    · exact absurd (List.mem_map.mpr ⟨r2, h2, by rw [← hc, h]⟩) hn.1
    · exact absurd (List.mem_map.mpr ⟨r, h, by rw [hc, h2]⟩) hn.1
    · exact ih hn.2 h h2

theorem filter_charset_singleton (l : List Result) (hn : (l.map Result.Charset).Nodup)
    (r : Result) (hr : r ∈ l) :
    l.filter (fun x => decide (x.Charset = r.Charset)) = [r] := by
  induction l with
  | nil => simp at hr
  | cons x l ih =>
    have hn2 := hn
    rw [List.map_cons, List.nodup_cons] at hn2
    rcases List.mem_cons.mp hr with h | h
    · subst h
      have hrest : l.filter (fun x => decide (x.Charset = r.Charset)) = [] := by
        rw [List.filter_eq_nil_iff]
        intro y hy hyc
        have hyc2 : y.Charset = r.Charset := by simpa using hyc
        exact hn2.1 (List.mem_map.mpr ⟨y, hy, hyc2⟩)
      simp [List.filter_cons, hrest]
    · have hx : x.Charset ≠ r.Charset := fun hxc =>
        hn2.1 (List.mem_map.mpr ⟨r, h, hxc.symm⟩)
      simp [List.filter_cons, hx, ih hn2.2 h]

/-- A successful `DetectBest` comes from a successful `DetectAll` whose first
element it returns. -/
theorem DetectBest_ok (d : Detector) (b : Bytes) (sched : Schedule) (srt : Sorter)
    (r : Result) (h : DetectBest d b sched srt = some (some r, none)) :
    ∃ tail, DetectAll d b sched srt = (r :: tail, none) := by
  unfold DetectBest at h
  split at h
  · rename_i all hall
    split at h
    · rename_i r2 hr2
      cases all with
      | nil => simp at hr2
      | cons x tail =>
        simp only [List.getElem?_cons_zero, Option.some.injEq] at hr2
        simp only [Option.some.injEq, Prod.mk.injEq, and_true] at h
        exact ⟨tail, by rw [hall, hr2, h]⟩
    · simp at h
  · simp at h

theorem positiveOutputs_perm (d : Detector) (b : Bytes) (s1 s2 : Schedule) :
    (positiveOutputs d b s1).Perm (positiveOutputs d b s2) := by
  unfold positiveOutputs
  exact ((s1.perm (sentOutputs d b)).trans (s2.perm (sentOutputs d b)).symm).filter _

/-! ## The claims -/

/-- C1: whenever `DetectAll` succeeds, the returned slice is sorted by
non-increasing Confidence, `res[i].Confidence ≥ res[j].Confidence` for all
indices `i < j`, whatever the arrival order on the channel and whatever the
outcome of the unstable sort. -/
theorem DetectAll_sorted (d : Detector) (b : Bytes) (sched : Schedule) (srt : Sorter)
    (res : List Result) (h : DetectAll d b sched srt = (res, none))
    (i j : Nat) (hi : i < res.length) (hj : j < res.length) (hij : i < j) :
    res[i].Confidence ≥ res[j].Confidence := by
  have hp := DetectAll_pairwise d b sched srt
  rw [h] at hp
  exact List.pairwise_iff_getElem.mp hp i j hi hj hij

/-- C1 on a run of `sampleDetector`: the first returned element is at least as
confident as the third. -/
theorem DetectAll_sorted_witness :
    DetectAll sampleDetector [71, 111] lifoSchedule reversingSorter = (sampleRanking, none) ∧
      (sampleRanking.get ⟨0, by decide⟩).Confidence ≥
        (sampleRanking.get ⟨2, by decide⟩).Confidence :=
  ⟨by decide,
    DetectAll_sorted sampleDetector [71, 111] lifoSchedule reversingSorter sampleRanking
      (by decide) 0 2 (by decide) (by decide) (by decide)⟩

/-- C2: whenever `DetectAll` succeeds, the Charset names in the returned slice
are pairwise distinct: two different indices never carry the same Charset. -/
theorem DetectAll_charsets_distinct (d : Detector) (b : Bytes) (sched : Schedule)
    (srt : Sorter) (res : List Result) (h : DetectAll d b sched srt = (res, none))
    (i j : Nat) (hi : i < res.length) (hj : j < res.length) (hij : i ≠ j) :
    res[i].Charset ≠ res[j].Charset := by
  have hn := DetectAll_nodup d b sched srt
  rw [h] at hn
  intro hc
  have hi2 : i < (res.map Result.Charset).length := by simpa using hi
  have hj2 : j < (res.map Result.Charset).length := by simpa using hj
  have heq : (res.map Result.Charset)[i] = (res.map Result.Charset)[j] := by
    simpa using hc
  exact hij ((List.Nodup.getElem_inj_iff hn).mp heq)

/-- C2 on a run of `sampleDetector`: the second and third returned elements
name different charsets. -/
theorem DetectAll_charsets_distinct_witness :
    DetectAll sampleDetector [] fifoSchedule stableSorter = (sampleRanking, none) ∧
      (sampleRanking.get ⟨1, by decide⟩).Charset ≠
        (sampleRanking.get ⟨2, by decide⟩).Charset :=
  ⟨by decide,
    DetectAll_charsets_distinct sampleDetector [] fifoSchedule stableSorter sampleRanking
      (by decide) 1 2 (by decide) (by decide) (by decide)⟩

/-- C3: deduplication keeps the highest-confidence result per charset. For
every charset name `c` that some recognizer reported with Confidence > 0, the
slice returned by `DetectAll` has exactly one element with Charset `c`; that
element is the output of a recognizer and its Confidence is the maximum over
all recognizer outputs whose Charset is `c`. -/
theorem DetectAll_keeps_best_per_charset (d : Detector) (b : Bytes) (sched : Schedule)
    (srt : Sorter) (c : String)
    (hc : ∃ o ∈ sentOutputs d b, o.Charset = c ∧ o.Confidence > 0) :
    ∃ r, (DetectAll d b sched srt).1.filter (fun x => decide (x.Charset = c)) = [r] ∧
      r.Charset = c ∧ r ∈ sentOutputs d b ∧
      ∀ o ∈ sentOutputs d b, o.Charset = c → o.Confidence ≤ r.Confidence := by
  obtain ⟨o, ho, hoc, hpos⟩ := hc
  obtain ⟨r, hr, hrc, _⟩ := DetectAll_covers d b sched srt o ho hpos
  have hrm := mem_DetectAll d b sched srt r hr
  have hn := DetectAll_nodup d b sched srt
  refine ⟨r, ?_, hrc.trans hoc, hrm.1, ?_⟩
  · rw [← hoc, ← hrc]
    exact filter_charset_singleton _ hn r hr
  · intro o2 ho2 ho2c
    by_cases hp2 : 0 < o2.Confidence
    · obtain ⟨r2, hr2, hr2c, hge⟩ := DetectAll_covers d b sched srt o2 ho2 hp2
      have hsame : r2 = r :=
        charset_unique _ hn r2 r hr2 hr (by rw [hr2c, ho2c, hrc, hoc])
      rw [hsame] at hge
      exact hge
    · have := hrm.2
      omega

/-- C3 on a run of `sampleDetector` for the charset ISO 8859-1, reported by two
recognizers. -/
theorem DetectAll_keeps_best_per_charset_witness :
    (∃ o ∈ sentOutputs sampleDetector [71, 111], o.Charset = "ISO 8859-1" ∧ o.Confidence > 0) ∧
      ∃ r, (DetectAll sampleDetector [71, 111] lifoSchedule stableSorter).1.filter
          (fun x => decide (x.Charset = "ISO 8859-1")) = [r] ∧
        r.Charset = "ISO 8859-1" ∧ r ∈ sentOutputs sampleDetector [71, 111] ∧
        ∀ o ∈ sentOutputs sampleDetector [71, 111], o.Charset = "ISO 8859-1" →
          o.Confidence ≤ r.Confidence :=
  ⟨by decide,
    DetectAll_keeps_best_per_charset sampleDetector [71, 111] lifoSchedule stableSorter
      "ISO 8859-1" (by decide)⟩

/-- C4: every element returned by `DetectAll` has Confidence > 0, for
arbitrary recognizer outputs; and when every recognizer output for the input
has Confidence in [0,100], every returned element has Confidence in (0,100]. -/
theorem DetectAll_confidence_range (d : Detector) (b : Bytes) (sched : Schedule)
    (srt : Sorter) :
    (∀ r ∈ (DetectAll d b sched srt).1, 0 < r.Confidence) ∧
      ((∀ o ∈ sentOutputs d b, 0 ≤ o.Confidence ∧ o.Confidence ≤ 100) →
        ∀ r ∈ (DetectAll d b sched srt).1, 0 < r.Confidence ∧ r.Confidence ≤ 100) := by
  refine ⟨fun r hr => (mem_DetectAll d b sched srt r hr).2, fun hmodel r hr => ?_⟩
  have hm := mem_DetectAll d b sched srt r hr
  exact ⟨hm.2, (hmodel r hm.1).2⟩

/-- C4 on a run of `sampleDetector`, whose recognizers answer within [0,100]. -/
theorem DetectAll_confidence_range_witness :
    (∀ o ∈ sentOutputs sampleDetector [10], 0 ≤ o.Confidence ∧ o.Confidence ≤ 100) ∧
      ∀ r ∈ (DetectAll sampleDetector [10] fifoSchedule reversingSorter).1,
        0 < r.Confidence ∧ r.Confidence ≤ 100 :=
  ⟨by decide,
    (DetectAll_confidence_range sampleDetector [10] fifoSchedule reversingSorter).2
      (by decide)⟩

/-- C5, as stated, fails: the only recognizer of `negativeDetector` produces the
nonzero Confidence -1, yet `DetectAll` fails with `ErrorNotDetected`. -/
theorem DetectAll_error_iff_nonzero_counterexample :
    ¬ ((DetectAll negativeDetector [] fifoSchedule stableSorter).2
          = some error.ErrorNotDetected ↔
        ∀ o ∈ sentOutputs negativeDetector [], o.Confidence = 0) := by
  decide

/-- C5, amended: `DetectAll` fails with `ErrorNotDetected` (and a nil slice) if
and only if no recognizer of the roster produced a Confidence greater than 0
for the input; otherwise it returns a nil error. In particular a Detector with
an empty roster always fails with `ErrorNotDetected`. -/
theorem DetectAll_error_iff_no_positive (d : Detector) (b : Bytes) (sched : Schedule)
    (srt : Sorter) :
    (DetectAll d b sched srt = ([], some error.ErrorNotDetected) ↔
        ∀ o ∈ sentOutputs d b, ¬ 0 < o.Confidence) ∧
      ((DetectAll d b sched srt).2 = none ↔ ∃ o ∈ sentOutputs d b, 0 < o.Confidence) ∧
      (∀ (flag : Bool),
        DetectAll ⟨[], flag⟩ b sched srt = ([], some error.ErrorNotDetected)) := by
  have hnil : positiveOutputs d b sched = [] ↔ ∀ o ∈ sentOutputs d b, ¬ 0 < o.Confidence := by
    rw [List.eq_nil_iff_forall_not_mem]
    constructor
    · intro h o ho hpos
      exact h o ((mem_positiveOutputs d b sched o).mpr ⟨ho, hpos⟩)
    · intro h o ho
      have := (mem_positiveOutputs d b sched o).mp ho
      exact h o this.1 this.2
  refine ⟨?_, ?_, ?_⟩
  · rw [DetectAll_eq, ← hnil]
    by_cases h : positiveOutputs d b sched = []
    · simp [h]
    · simp [h]
  · rw [DetectAll_eq]
    by_cases h : positiveOutputs d b sched = []
    · have h2 := hnil.mp h
      simp only [h, if_true]
      constructor
      · intro h3; simp at h3
      · rintro ⟨o, ho, hpos⟩; exact absurd hpos (h2 o ho)
    · simp only [h, if_false, true_iff]
      by_contra hcon
      apply h
      rw [hnil]
      intro o ho hpos
      exact hcon ⟨o, ho, hpos⟩
  · intro flag
    rw [DetectAll_eq]
    have : positiveOutputs ⟨[], flag⟩ b sched = [] := by
      apply List.eq_nil_iff_forall_not_mem.mpr
      intro o ho
      have := ((mem_positiveOutputs _ b sched o).mp ho).1
      simp [sentOutputs] at this
    simp [this]

/-- Within one run (one arrival order, one sort outcome) `DetectBest` returns
the error of `DetectAll` with a nil Result, or the first element of its slice. -/
theorem DetectBest_same_run (d : Detector) (b : Bytes) (sched : Schedule)
    (srt : Sorter) :
    (∀ r e, DetectBest d b sched srt = some (r, some e) ↔
        (r = none ∧ (DetectAll d b sched srt).2 = some e)) ∧
      (∀ res, DetectAll d b sched srt = (res, none) →
        ∃ first, res[0]? = some first ∧
          DetectBest d b sched srt = some (some first, none)) := by
  constructor
  · intro r e
    unfold DetectBest
    split
    · rename_i all hall
      rw [hall]
      split <;> simp
    · rename_i all err hall
      rw [hall]
      simp only [Option.some.injEq, Prod.mk.injEq]
      constructor
      · rintro ⟨h1, h2⟩; exact ⟨h1.symm, h2⟩
      · rintro ⟨h1, h2⟩; exact ⟨h1.symm, h2⟩
  · intro res h
    obtain ⟨hne, hres⟩ := DetectAll_ok d b sched srt res h
    have hres_ne : res ≠ [] := by
      rw [hres]; exact keepFirst_ne_nil _ (Sorter.sort_ne_nil srt _ hne)
    cases res with
    | nil => exact absurd rfl hres_ne
    | cons x tail =>
      refine ⟨x, by simp, ?_⟩
      unfold DetectBest
      rw [h]
      simp

/-- C7: `DetectBest` returns the Result with highest Confidence. Whenever it
succeeds, the Confidence of the returned Result is greater than or equal to the
Confidence produced by every recognizer of the roster for that input, and it is
the Confidence of one of them, hence the maximum. -/
theorem DetectBest_highest_confidence (d : Detector) (b : Bytes) (sched : Schedule)
    (srt : Sorter) (r : Result) (h : DetectBest d b sched srt = some (some r, none)) :
    (∀ o ∈ sentOutputs d b, o.Confidence ≤ r.Confidence) ∧
      ∃ o ∈ sentOutputs d b, o.Confidence = r.Confidence := by
  obtain ⟨tail, hall⟩ := DetectBest_ok d b sched srt r h
  have hp := DetectAll_pairwise d b sched srt
  rw [hall] at hp
  simp only [List.pairwise_cons] at hp
  have hmem : r ∈ (DetectAll d b sched srt).1 := by rw [hall]; exact List.mem_cons_self _ _
  have hr := mem_DetectAll d b sched srt r hmem
  refine ⟨fun o ho => ?_, ⟨r, hr.1, rfl⟩⟩
  by_cases hpos : 0 < o.Confidence
  · obtain ⟨r2, hr2, _, hge⟩ := DetectAll_covers d b sched srt o ho hpos
    rw [hall] at hr2
    rcases List.mem_cons.mp hr2 with h2 | h2
    · rw [h2] at hge; exact hge
    · have := hp.1 r2 h2
      unfold confGE at this
      omega
  · have := hr.2
    omega

/-- C7 on a run of `sampleDetector`: the best Result has Confidence 40. -/
theorem DetectBest_highest_confidence_witness :
    DetectBest sampleDetector [71, 111] lifoSchedule stableSorter
        = some (some ⟨"ISO 8859-1", "fr", 40⟩, none) ∧
      (∀ o ∈ sentOutputs sampleDetector [71, 111], o.Confidence ≤ 40) ∧
      ∃ o ∈ sentOutputs sampleDetector [71, 111], o.Confidence = 40 :=
  ⟨by decide,
    DetectBest_highest_confidence sampleDetector [71, 111] lifoSchedule stableSorter
      ⟨"ISO 8859-1", "fr", 40⟩ (by decide)⟩

/-- C8, as stated, fails: the recognizer output ISO 8859-1/en of
`sampleDetector` has the non-zero Confidence 25 and is not an element of the
slice `DetectAll` returns, ISO 8859-1/fr with Confidence 40 having taken the
place of its Charset. -/
theorem DetectAll_returns_all_nonzero_counterexample :
    (⟨"ISO 8859-1", "en", 25⟩ : Result) ∈ sentOutputs sampleDetector [71, 111] ∧
      (⟨"ISO 8859-1", "en", 25⟩ : Result).Confidence ≠ 0 ∧
      DetectAll sampleDetector [71, 111] fifoSchedule stableSorter = (sampleRanking, none) ∧
      (⟨"ISO 8859-1", "en", 25⟩ : Result) ∉ sampleRanking := by
  decide

/-- C8, amended: every recognizer output whose Confidence is greater than 0 is
represented in the slice returned by `DetectAll` by an element with its Charset
and a Confidence at least as high; and it appears itself, with its Charset,
Language and Confidence, whenever no other recognizer output with the same
Charset has a Confidence greater than or equal to its own. -/
theorem DetectAll_returns_unbeaten_positive (d : Detector) (b : Bytes) (sched : Schedule)
    (srt : Sorter) (o : recognizerOutput) (ho : o ∈ sentOutputs d b)
    (hpos : 0 < o.Confidence) :
    (∃ r ∈ (DetectAll d b sched srt).1,
        r.Charset = o.Charset ∧ r.Confidence ≥ o.Confidence) ∧
      ((∀ o2 ∈ sentOutputs d b, o2.Charset = o.Charset →
          o2.Confidence ≥ o.Confidence → o2 = o) →
        o ∈ (DetectAll d b sched srt).1) := by
  obtain ⟨r, hr, hrc, hge⟩ := DetectAll_covers d b sched srt o ho hpos
  refine ⟨⟨r, hr, hrc, hge⟩, fun hbest => ?_⟩
  have hro : r = o := hbest r (mem_DetectAll d b sched srt r hr).1 hrc hge
  rw [← hro]
  exact hr

/-- C8, amended, on a run of `sampleDetector` for the only Shift_JIS output. -/
theorem DetectAll_returns_unbeaten_positive_witness :
    ((⟨"Shift_JIS", "ja", 25⟩ : Result) ∈ sentOutputs sampleDetector [71, 111] ∧
        0 < (⟨"Shift_JIS", "ja", 25⟩ : Result).Confidence ∧
        ∀ o2 ∈ sentOutputs sampleDetector [71, 111], o2.Charset = "Shift_JIS" →
          o2.Confidence ≥ 25 → o2 = ⟨"Shift_JIS", "ja", 25⟩) ∧
      (⟨"Shift_JIS", "ja", 25⟩ : Result) ∈
        (DetectAll sampleDetector [71, 111] lifoSchedule reversingSorter).1 :=
  ⟨by decide,
    (DetectAll_returns_unbeaten_positive sampleDetector [71, 111] lifoSchedule
      reversingSorter ⟨"Shift_JIS", "ja", 25⟩ (by decide) (by decide)).2 (by decide)⟩

/-- C9, as stated, fails: with two recognizers tied at Confidence 25 for the
same Charset, the slice returned for the same buffer changes with the arrival
order on the channel, and with the outcome of the sort. -/
theorem DetectAll_order_independent_counterexample :
    DetectAll tieDetector [60, 104] fifoSchedule stableSorter
        = ([⟨"ISO 8859-1", "en", 25⟩], none) ∧
      DetectAll tieDetector [60, 104] lifoSchedule stableSorter
        = ([⟨"ISO 8859-1", "fr", 25⟩], none) ∧
      DetectAll tieDetector [60, 104] fifoSchedule reversingSorter
        = ([⟨"ISO 8859-1", "fr", 25⟩], none) := by
  decide

/-- C9, amended: when any two recognizer outputs for the buffer that have the
same positive Confidence are equal in all three fields, `DetectAll` returns
the identical result for every order in which the outputs arrive on the channel
and for every result the unstable sort may produce. -/
theorem DetectAll_deterministic_without_ties (d : Detector) (b : Bytes)
    (s1 s2 : Schedule) (t1 t2 : Sorter)
    (hties : ∀ o1 ∈ sentOutputs d b, ∀ o2 ∈ sentOutputs d b,
      0 < o1.Confidence → o1.Confidence = o2.Confidence → o1 = o2) :
    DetectAll d b s1 t1 = DetectAll d b s2 t2 := by
  have hperm := positiveOutputs_perm d b s1 s2
  have hsorted : t1.sort (positiveOutputs d b s1) = t2.sort (positiveOutputs d b s2) := by
    apply List.Perm.eq_of_sorted _ (Sorter.pairwise t1 _) (Sorter.pairwise t2 _)
      (((t1.perm _).trans hperm).trans (t2.perm _).symm)
    intro x y hx hy hxy hyx
    have hx2 := (mem_sorted_positive d b s1 t1 x).mp hx
    have hy2 := (mem_sorted_positive d b s2 t2 y).mp hy
    unfold confGE at hxy hyx
    exact hties x hx2.1 y hy2.1 hx2.2 (by omega)
  rw [DetectAll_eq, DetectAll_eq, hsorted]
  by_cases h : positiveOutputs d b s1 = []
  · have h2 : positiveOutputs d b s2 = [] := by
      have hl := hperm.length_eq
      apply List.length_eq_zero.mp
      rw [← hl, h]; rfl
    simp [h, h2]
  · have h2 : positiveOutputs d b s2 ≠ [] := by
      intro h0
      apply h
      have hl := hperm.length_eq
      apply List.length_eq_zero.mp
      rw [hl, h0]; rfl
    simp [h, h2]

/-- C9, amended, on `distinctDetector`: two runs that differ in arrival order
and in sort outcome return the same result. -/
theorem DetectAll_deterministic_without_ties_witness :
    (∀ o1 ∈ sentOutputs distinctDetector [60, 104],
        ∀ o2 ∈ sentOutputs distinctDetector [60, 104],
          0 < o1.Confidence → o1.Confidence = o2.Confidence → o1 = o2) ∧
      DetectAll distinctDetector [60, 104] fifoSchedule stableSorter
        = DetectAll distinctDetector [60, 104] lifoSchedule reversingSorter :=
  ⟨by decide,
    DetectAll_deterministic_without_ties distinctDetector [60, 104] fifoSchedule
      lifoSchedule stableSorter reversingSorter (by decide)⟩

/-! ## Deduplication against its specification -/

/-- The loop state `foundCharsets` holds exactly the Charsets of the elements
already scanned (`before`); under that invariant the loop keeps the elements
whose position has no equal Charset before it. -/
theorem keepFirst_eq_filter (found : List String) (before l : List recognizerOutput)
    (hinv : ∀ c, c ∈ found ↔ ∃ p ∈ before, p.Charset = c) :
    keepFirst found l =
      ((l.enumFrom before.length).filter (fun p =>
        ((before ++ l).take p.1).all (fun q => decide (q.Charset ≠ p.2.Charset)))).map
          Prod.snd := by
  induction l generalizing found before with
  | nil => simp [keepFirst]
  | cons o l ih =>
    have hcond : ((before ++ o :: l).take before.length).all
        (fun q => decide (q.Charset ≠ o.Charset)) = true ↔ o.Charset ∉ found := by
      rw [List.take_left, List.all_eq_true, hinv]
      simp
    have hlen : (before ++ [o]).length = before.length + 1 := by simp
    have happ : (before ++ [o]) ++ l = before ++ o :: l := by simp
    unfold keepFirst
    rw [List.enumFrom_cons, List.filter_cons]
    by_cases h : o.Charset ∈ found
    · have hc : ¬ (((before ++ o :: l).take before.length).all
          (fun q => decide (q.Charset ≠ o.Charset)) = true) := fun hc => hcond.mp hc h
      rw [if_pos h, if_neg hc]
      have := ih found (before ++ [o]) (by
        intro c
        rw [hinv]
        constructor
        · rintro ⟨p, hp, hpc⟩
          exact ⟨p, List.mem_append_left _ hp, hpc⟩
        · rintro ⟨p, hp, hpc⟩
          rcases List.mem_append.mp hp with h3 | h3
          · exact ⟨p, h3, hpc⟩
          · have hpo : p = o := by simpa using h3
            rw [← hpc, hpo]
            exact (hinv _).mp h)
      rw [hlen, happ] at this
      exact this
    · rw [if_neg h, if_pos (hcond.mpr h), List.map_cons]
      congr 1
      have := ih (o.Charset :: found) (before ++ [o]) (by
        intro c
        constructor
        · intro hc
          rcases List.mem_cons.mp hc with h3 | h3
          · exact ⟨o, List.mem_append_right _ (List.mem_singleton_self o), h3.symm⟩
          · obtain ⟨p, hp, hpc⟩ := (hinv c).mp h3
            exact ⟨p, List.mem_append_left _ hp, hpc⟩
        · rintro ⟨p, hp, hpc⟩
          rcases List.mem_append.mp hp with h3 | h3
          · exact List.mem_cons_of_mem _ ((hinv c).mpr ⟨p, h3, hpc⟩)
          · have hpo : p = o := by simpa using h3
            rw [← hpc, hpo]
            exact List.mem_cons_self _ _)
      rw [hlen, happ] at this
      exact this

theorem keepFirst_eq_firstOccurrences (l : List recognizerOutput) :
    keepFirst [] l = firstOccurrences l := by
  have := keepFirst_eq_filter [] [] l (by intro c; simp)
  simpa [firstOccurrences, List.enum] using this

/-- C12: deduplication cannot empty the set. Whenever at least one output
passes the filter `Confidence > 0` (the first length test of `DetectAll` is
passed), the deduplicated list is non-empty, so the second `ErrorNotDetected`
branch is not taken; a successful `DetectAll` never returns an empty slice; and
the index `all[0]` of `DetectBest` is always in range (no panic). -/
theorem dedup_never_empties (d : Detector) (b : Bytes) (sched : Schedule) (srt : Sorter) :
    (((sched.order (sentOutputs d b)).foldl receiveStep []).length ≠ 0 →
        (((srt.sort ((sched.order (sentOutputs d b)).foldl receiveStep [])).foldl
          dedupStep ([], [])).1).length ≠ 0) ∧
      (∀ res, DetectAll d b sched srt = (res, none) → res ≠ []) ∧
      DetectBest d b sched srt ≠ none := by
  have hsucc : ∀ res, DetectAll d b sched srt = (res, none) → res ≠ [] := by
    intro res h
    obtain ⟨hne, hres⟩ := DetectAll_ok d b sched srt res h
    rw [hres]
    exact keepFirst_ne_nil _ (Sorter.sort_ne_nil srt _ hne)
  refine ⟨?_, hsucc, ?_⟩
  · intro h
    rw [dedup_foldl, List.nil_append]
    intro h0
    apply keepFirst_ne_nil _ (Sorter.sort_ne_nil srt _ _) (List.length_eq_zero.mp h0)
    intro hnil
    exact h (by rw [hnil]; rfl)
  · unfold DetectBest
    split
    · rename_i all hall
      have hne := hsucc all hall
      cases all with
      | nil => exact absurd rfl hne
      | cons x tail => simp
    · simp

/-- C12 on a run of `sampleDetector`: outputs pass the filter, the
deduplicated list is not empty and the returned slice is not empty. -/
theorem dedup_never_empties_witness :
    ((fifoSchedule.order (sentOutputs sampleDetector [71, 111])).foldl receiveStep []).length
        ≠ 0 ∧
      (((stableSorter.sort ((fifoSchedule.order
          (sentOutputs sampleDetector [71, 111])).foldl receiveStep [])).foldl
            dedupStep ([], [])).1).length ≠ 0 ∧
      DetectAll sampleDetector [71, 111] fifoSchedule stableSorter = (sampleRanking, none) ∧
      sampleRanking ≠ [] :=
  ⟨by decide,
    (dedup_never_empties sampleDetector [71, 111] fifoSchedule stableSorter).1 (by decide),
    by decide,
    (dedup_never_empties sampleDetector [71, 111] fifoSchedule stableSorter).2.1
      sampleRanking (by decide)⟩

/-- C13: dedup keeps first occurrences in scan order. The slice returned by a
successful `DetectAll` is exactly the subsequence of the sorted, filtered
output list, relative order preserved, made of the elements that no element
with the same Charset precedes in that sorted list; every later element with an
already seen Charset is discarded. -/
theorem DetectAll_keeps_first_occurrences (d : Detector) (b : Bytes) (sched : Schedule)
    (srt : Sorter) (res : List Result) (h : DetectAll d b sched srt = (res, none)) :
    res = firstOccurrences (srt.sort (positiveOutputs d b sched)) ∧
      res.Sublist (srt.sort (positiveOutputs d b sched)) := by
  obtain ⟨_, hres⟩ := DetectAll_ok d b sched srt res h
  refine ⟨?_, ?_⟩
  · rw [hres, keepFirst_eq_firstOccurrences]
  · rw [hres]
    exact keepFirst_sublist _ _

/-- C13 on a run of `sampleDetector`: of the two ISO 8859-1 outputs of the
sorted list only the first is returned. -/
theorem DetectAll_keeps_first_occurrences_witness :
    DetectAll sampleDetector [71, 111] lifoSchedule stableSorter = (sampleRanking, none) ∧
      stableSorter.sort (positiveOutputs sampleDetector [71, 111] lifoSchedule) =
        [⟨"ISO 8859-1", "fr", 40⟩, ⟨"Shift_JIS", "ja", 25⟩, ⟨"ISO 8859-1", "en", 25⟩,
          ⟨"UTF-8", "", 10⟩] ∧
      sampleRanking =
        firstOccurrences (stableSorter.sort (positiveOutputs sampleDetector [71, 111]
          lifoSchedule)) :=
  ⟨by decide, by decide,
    (DetectAll_keeps_first_occurrences sampleDetector [71, 111] lifoSchedule stableSorter
      sampleRanking (by decide)).1⟩

/-! ## Independence of the run -/

theorem positiveOutputs_perm_positiveSent (d : Detector) (b : Bytes) (sched : Schedule) :
    (positiveOutputs d b sched).Perm (positiveSent d b) := by
  unfold positiveOutputs positiveSent
  exact (sched.perm (sentOutputs d b)).filter _

theorem mem_positiveSent (d : Detector) (b : Bytes) (o : recognizerOutput) :
    o ∈ positiveSent d b ↔ o ∈ sentOutputs d b ∧ 0 < o.Confidence := by
  unfold positiveSent
  rw [List.mem_filter]
  simp

theorem positiveOutputs_eq_nil_iff (d : Detector) (b : Bytes) (sched : Schedule) :
    positiveOutputs d b sched = [] ↔ positiveSent d b = [] := by
  have hl := (positiveOutputs_perm_positiveSent d b sched).length_eq
  constructor
  · intro h
    apply List.length_eq_zero.mp
    rw [← hl, h]; rfl
  · intro h
    apply List.length_eq_zero.mp
    rw [hl, h]; rfl

/-- The error component depends on the recognizer outputs only. -/
theorem DetectAll_snd (d : Detector) (b : Bytes) (sched : Schedule) (srt : Sorter) :
    (DetectAll d b sched srt).2 =
      if positiveSent d b = [] then some error.ErrorNotDetected else none := by
  rw [DetectAll_eq]
  by_cases h : positiveSent d b = []
  · simp [h, (positiveOutputs_eq_nil_iff d b sched).mpr h]
  · have h2 : positiveOutputs d b sched ≠ [] := fun h0 =>
      h ((positiveOutputs_eq_nil_iff d b sched).mp h0)
    simp [h, h2]

/-- An element returned by one run has a counterpart with the same Charset and
the same Confidence in any other run. -/
theorem DetectAll_pair_transfer (d : Detector) (b : Bytes) (s1 s2 : Schedule)
    (t1 t2 : Sorter) (r : Result) (hr : r ∈ (DetectAll d b s1 t1).1) :
    ∃ r2 ∈ (DetectAll d b s2 t2).1,
      r2.Charset = r.Charset ∧ r2.Confidence = r.Confidence := by
  have hrm := mem_DetectAll d b s1 t1 r hr
  obtain ⟨r2, hr2, hc2, hge2⟩ := DetectAll_covers d b s2 t2 r hrm.1 hrm.2
  have hr2m := mem_DetectAll d b s2 t2 r2 hr2
  obtain ⟨r1, hr1, hc1, hge1⟩ := DetectAll_covers d b s1 t1 r2 hr2m.1 hr2m.2
  have hsame : r1 = r :=
    charset_unique _ (DetectAll_nodup d b s1 t1) r1 r hr1 hr (by rw [hc1, hc2])
  rw [hsame] at hge1
  exact ⟨r2, hr2, hc2, by omega⟩

/-- Two descending arrangements of the same outputs coincide when equal
Confidence forces equal outputs. -/
theorem descending_unique (P l1 l2 : List recognizerOutput)
    (hties : ∀ x ∈ P, ∀ y ∈ P, x.Confidence = y.Confidence → x = y)
    (h1 : l1.Perm P) (h2 : l2.Perm P)
    (p1 : l1.Pairwise confGE) (p2 : l2.Pairwise confGE) : l1 = l2 := by
  apply List.Perm.eq_of_sorted _ p1 p2 (h1.trans h2.symm)
  intro x y hx hy hxy hyx
  unfold confGE at hxy hyx
  exact hties x (h1.mem_iff.mp hx) y (h2.mem_iff.mp hy) (by omega)

/-- C14: `NewTextDetector` and `NewHTMLDetector` build Detectors over the same
roster, the package-level list of 40 recognizers in the same order, and differ
only in the markup flag: `stripTag` is false for `NewTextDetector` and true for
`NewHTMLDetector`; the values `DetectAll` puts on the channel are the answers
of the roster on the input built from the caller's buffer and exactly that
flag. -/
theorem detectors_differ_only_in_stripTag (c : recognizerConstructors) (b : Bytes) :
    (NewTextDetector (recognizers c)).recognizers = recognizers c ∧
      (NewHTMLDetector (recognizers c)).recognizers = recognizers c ∧
      (recognizers c).length = 40 ∧
      (NewTextDetector (recognizers c)).stripTag = false ∧
      (NewHTMLDetector (recognizers c)).stripTag = true ∧
      sentOutputs (NewTextDetector (recognizers c)) b =
        (recognizers c).map (fun r => r.Match (newRecognizerInput b false)) ∧
      sentOutputs (NewHTMLDetector (recognizers c)) b =
        (recognizers c).map (fun r => r.Match (newRecognizerInput b true)) := by
  refine ⟨rfl, rfl, rfl, rfl, rfl, ?_, ?_⟩
  · unfold sentOutputs matchHelper NewTextDetector
    rfl
  · unfold sentOutputs matchHelper NewHTMLDetector
    rfl

/-- C16: `DetectAll` fabricates and alters nothing. Every element of the
returned slice is, field for field, the output of some recognizer of the roster
for that input; the length of the slice is the number of distinct Charset names
among the recognizer outputs with Confidence > 0, hence at most the length of
the roster. -/
theorem DetectAll_fabricates_nothing (d : Detector) (b : Bytes) (sched : Schedule)
    (srt : Sorter) :
    (∀ x ∈ (DetectAll d b sched srt).1,
        ∃ r ∈ d.recognizers, r.Match (newRecognizerInput b d.stripTag) = x) ∧
      (DetectAll d b sched srt).1.length =
        ((positiveSent d b).map Result.Charset).toFinset.card ∧
      (DetectAll d b sched srt).1.length ≤ d.recognizers.length := by
  refine ⟨?_, ?_, ?_⟩
  · intro x hx
    have hm := (mem_DetectAll d b sched srt x hx).1
    unfold sentOutputs matchHelper at hm
    obtain ⟨r, hr, hrx⟩ := List.mem_map.mp hm
    exact ⟨r, hr, hrx⟩
  · have hn := DetectAll_nodup d b sched srt
    rw [← List.length_map (DetectAll d b sched srt).1 Result.Charset,
      ← List.toFinset_card_of_nodup hn]
    congr 1
    ext c
    simp only [List.mem_toFinset, List.mem_map]
    constructor
    · rintro ⟨x, hx, hxc⟩
      exact ⟨x, (mem_positiveSent d b x).mpr (mem_DetectAll d b sched srt x hx), hxc⟩
    · rintro ⟨o, ho, hoc⟩
      have hom := (mem_positiveSent d b o).mp ho
      obtain ⟨x, hx, hxc, _⟩ := DetectAll_covers d b sched srt o hom.1 hom.2
      exact ⟨x, hx, hxc.trans hoc⟩
  · rw [DetectAll_fst]
    calc (keepFirst [] (srt.sort (positiveOutputs d b sched))).length
        ≤ (srt.sort (positiveOutputs d b sched)).length := (keepFirst_sublist _ _).length_le
      _ = (positiveOutputs d b sched).length := (srt.perm _).length_eq
      _ ≤ (sched.order (sentOutputs d b)).length := by
          unfold positiveOutputs
          exact List.length_filter_le _ _
      _ = (sentOutputs d b).length := (sched.perm _).length_eq
      _ = d.recognizers.length := by unfold sentOutputs; simp

/-- C16 on a run of `sampleDetector`: the returned UTF-8 element is the answer
of a recognizer of the roster, and the three returned elements are as many as
the distinct Charsets with positive Confidence, out of five recognizers. -/
theorem DetectAll_fabricates_nothing_witness :
    (⟨"UTF-8", "", 10⟩ : Result) ∈
        (DetectAll sampleDetector [71, 111] lifoSchedule stableSorter).1 ∧
      (∃ r ∈ sampleDetector.recognizers,
        r.Match (newRecognizerInput [71, 111] sampleDetector.stripTag)
          = ⟨"UTF-8", "", 10⟩) ∧
      (DetectAll sampleDetector [71, 111] lifoSchedule stableSorter).1.length = 3 ∧
      sampleDetector.recognizers.length = 5 :=
  ⟨by decide,
    (DetectAll_fabricates_nothing sampleDetector [71, 111] lifoSchedule stableSorter).1
      ⟨"UTF-8", "", 10⟩ (by decide),
    by decide, by decide⟩

/-- C17: even when Confidences tie, the (Charset, Confidence) pairs returned by
`DetectAll` are the same for every arrival order of the recognizer outputs and
every outcome of the unstable sort, and so are the sequence of Confidences and
the error; what can differ between two runs is only the Language attached to a
Charset and the relative order of elements of equal Confidence. -/
theorem DetectAll_pairs_run_independent (d : Detector) (b : Bytes) (s1 s2 : Schedule)
    (t1 t2 : Sorter) :
    ((DetectAll d b s1 t1).1.map (fun r => (r.Charset, r.Confidence))).Perm
        ((DetectAll d b s2 t2).1.map (fun r => (r.Charset, r.Confidence))) ∧
      (DetectAll d b s1 t1).1.map Result.Confidence =
        (DetectAll d b s2 t2).1.map Result.Confidence ∧
      (DetectAll d b s1 t1).2 = (DetectAll d b s2 t2).2 := by
  have hnodup : ∀ (s : Schedule) (t : Sorter),
      ((DetectAll d b s t).1.map (fun r => (r.Charset, r.Confidence))).Nodup := by
    intro s t
    apply List.Nodup.of_map Prod.fst
    rw [List.map_map]
    exact DetectAll_nodup d b s t
  have hsub : ∀ (sa sb : Schedule) (ta tb : Sorter) (a : String × Int),
      a ∈ (DetectAll d b sa ta).1.map (fun r => (r.Charset, r.Confidence)) →
      a ∈ (DetectAll d b sb tb).1.map (fun r => (r.Charset, r.Confidence)) := by
    intro sa sb ta tb a ha
    obtain ⟨r, hr, hra⟩ := List.mem_map.mp ha
    obtain ⟨r2, hr2, hc, hn⟩ := DetectAll_pair_transfer d b sa sb ta tb r hr
    exact List.mem_map.mpr ⟨r2, hr2, by rw [← hra, hc, hn]⟩
  have hperm : ((DetectAll d b s1 t1).1.map (fun r => (r.Charset, r.Confidence))).Perm
      ((DetectAll d b s2 t2).1.map (fun r => (r.Charset, r.Confidence))) :=
    (List.perm_ext_iff_of_nodup (hnodup s1 t1) (hnodup s2 t2)).mpr
      (fun a => ⟨hsub s1 s2 t1 t2 a, hsub s2 s1 t2 t1 a⟩)
  refine ⟨hperm, ?_, ?_⟩
  · have hdesc : ∀ (s : Schedule) (t : Sorter),
        ((DetectAll d b s t).1.map Result.Confidence).Pairwise (fun x y => x ≥ y) := by
      intro s t
      rw [List.pairwise_map]
      exact DetectAll_pairwise d b s t
    have hp2 := hperm.map Prod.snd
    rw [List.map_map, List.map_map] at hp2
    apply List.Perm.eq_of_sorted _ (hdesc s1 t1) (hdesc s2 t2) hp2
    intro x y _ _ hxy hyx
    omega
  · rw [DetectAll_snd, DetectAll_snd]

/-- C18: if the positive Confidence values produced by the recognizers for an
input are pairwise distinct, the output of `DetectAll` is fully determined.
There is a unique arrangement of the positive outputs in descending order of
Confidence; for every arrival order and every valid sort result `DetectAll`
returns the first-occurrence dedup of that arrangement (same elements, same
order, same Languages); hence any two runs return the same result. -/
theorem DetectAll_determined_when_distinct (d : Detector) (b : Bytes)
    (hd : ((positiveSent d b).map Result.Confidence).Nodup) :
    (∀ l : List recognizerOutput, l.Perm (positiveSent d b) → l.Pairwise confGE →
        l = descendingOrdering d b) ∧
      (∀ (sched : Schedule) (srt : Sorter), DetectAll d b sched srt =
        if positiveSent d b = [] then ([], some error.ErrorNotDetected)
        else (firstOccurrences (descendingOrdering d b), none)) ∧
      (∀ (s1 s2 : Schedule) (t1 t2 : Sorter),
        DetectAll d b s1 t1 = DetectAll d b s2 t2) := by
  have hties : ∀ x ∈ positiveSent d b, ∀ y ∈ positiveSent d b,
      x.Confidence = y.Confidence → x = y :=
    fun x hx y hy hxy => List.inj_on_of_nodup_map hd hx hy hxy
  have huniq : ∀ l : List recognizerOutput, l.Perm (positiveSent d b) →
      l.Pairwise confGE → l = descendingOrdering d b := by
    intro l hl hp
    exact descending_unique (positiveSent d b) l (descendingOrdering d b) hties hl
      (List.perm_insertionSort confGE _) hp (List.sorted_insertionSort confGE _)
  have hall : ∀ (sched : Schedule) (srt : Sorter), DetectAll d b sched srt =
      if positiveSent d b = [] then ([], some error.ErrorNotDetected)
      else (firstOccurrences (descendingOrdering d b), none) := by
    intro sched srt
    have hsort : srt.sort (positiveOutputs d b sched) = descendingOrdering d b :=
      huniq _ ((srt.perm _).trans (positiveOutputs_perm_positiveSent d b sched))
        (Sorter.pairwise srt _)
    rw [DetectAll_eq, hsort, keepFirst_eq_firstOccurrences]
    by_cases h : positiveSent d b = []
    · simp [h, (positiveOutputs_eq_nil_iff d b sched).mpr h]
    · have h2 : positiveOutputs d b sched ≠ [] := fun h0 =>
        h ((positiveOutputs_eq_nil_iff d b sched).mp h0)
      simp [h, h2]
  exact ⟨huniq, hall, fun s1 s2 t1 t2 => by rw [hall s1 t1, hall s2 t2]⟩

/-- C18 on `distinctDetector`, whose positive Confidences 25, 10 and 40 are
pairwise distinct: a run returns the first occurrences of the descending
arrangement, ISO 8859-1/fr then UTF-8. -/
theorem DetectAll_determined_when_distinct_witness :
    ((positiveSent distinctDetector [60, 104]).map Result.Confidence).Nodup ∧
      firstOccurrences (descendingOrdering distinctDetector [60, 104]) =
        [⟨"ISO 8859-1", "fr", 40⟩, ⟨"UTF-8", "", 10⟩] ∧
      DetectAll distinctDetector [60, 104] lifoSchedule reversingSorter =
        if positiveSent distinctDetector [60, 104] = [] then
          ([], some error.ErrorNotDetected)
        else (firstOccurrences (descendingOrdering distinctDetector [60, 104]), none) :=
  ⟨by decide, by decide,
    (DetectAll_determined_when_distinct distinctDetector [60, 104] (by decide)).2.1
      lifoSchedule reversingSorter⟩

/-! ## `DetectBest` against a separate call of `DetectAll` -/

/-- The first element of a successful `DetectAll` is a recognizer output of
positive Confidence that no recognizer output exceeds. -/
theorem DetectAll_head_max (d : Detector) (b : Bytes) (sched : Schedule) (srt : Sorter)
    (x : Result) (tail : List Result) (h : DetectAll d b sched srt = (x :: tail, none)) :
    x ∈ sentOutputs d b ∧ 0 < x.Confidence ∧
      ∀ o ∈ sentOutputs d b, o.Confidence ≤ x.Confidence := by
  have hp := DetectAll_pairwise d b sched srt
  rw [h] at hp
  simp only [List.pairwise_cons] at hp
  have hmem : x ∈ (DetectAll d b sched srt).1 := by rw [h]; exact List.mem_cons_self _ _
  have hx := mem_DetectAll d b sched srt x hmem
  refine ⟨hx.1, hx.2, fun o ho => ?_⟩
  by_cases hpos : 0 < o.Confidence
  · obtain ⟨r2, hr2, _, hge⟩ := DetectAll_covers d b sched srt o ho hpos
    rw [h] at hr2
    rcases List.mem_cons.mp hr2 with h2 | h2
    · rw [h2] at hge; exact hge
    · have := hp.1 r2 h2
      unfold confGE at this
      omega
  · have := hx.2
    omega

/-- C6, as stated, fails: the claim fixes the Detector, the buffer and the
recognizer outputs only, and with two outputs tied at Confidence 25 a call of
`DetectAll` returns the slice headed by ISO 8859-1/en while a call of
`DetectBest`, receiving the same outputs in the other order, returns
ISO 8859-1/fr, which is not the first element of that slice. -/
theorem DetectBest_first_of_DetectAll_counterexample :
    DetectAll tieDetector [60, 104] fifoSchedule stableSorter
        = ([⟨"ISO 8859-1", "en", 25⟩], none) ∧
      DetectBest tieDetector [60, 104] lifoSchedule stableSorter
        = some (some ⟨"ISO 8859-1", "fr", 25⟩, none) ∧
      (⟨"ISO 8859-1", "fr", 25⟩ : Result) ≠ ⟨"ISO 8859-1", "en", 25⟩ := by
  decide

/-- C6, amended: for a call of `DetectAll` (run `s1`, `t1`) and a call of
`DetectBest` (run `s2`, `t2`) on the same Detector and buffer, `DetectBest`
returns an error exactly when `DetectAll` does, with the same error value and a
nil Result. When `DetectAll` succeeds, `DetectBest` on the same run returns the
first element of the slice of `DetectAll`; on any other run it returns a nil
error and a Result with the Confidence of that first element, and the very same
Result when recognizer outputs of equal positive Confidence are equal. -/
theorem DetectBest_agrees_with_DetectAll (d : Detector) (b : Bytes) (s1 s2 : Schedule)
    (t1 t2 : Sorter) :
    (∀ r e, DetectBest d b s2 t2 = some (r, some e) ↔
        (r = none ∧ (DetectAll d b s1 t1).2 = some e)) ∧
      (∀ res, DetectAll d b s1 t1 = (res, none) →
        ∃ first, res[0]? = some first ∧
          DetectBest d b s1 t1 = some (some first, none) ∧
          ∃ best, DetectBest d b s2 t2 = some (some best, none) ∧
            best.Confidence = first.Confidence ∧
            ((∀ o1 ∈ sentOutputs d b, ∀ o2 ∈ sentOutputs d b,
                0 < o1.Confidence → o1.Confidence = o2.Confidence → o1 = o2) →
              best = first)) := by
  have hsnd : (DetectAll d b s1 t1).2 = (DetectAll d b s2 t2).2 := by
    rw [DetectAll_snd, DetectAll_snd]
  constructor
  · intro r e
    rw [hsnd]
    exact (DetectBest_same_run d b s2 t2).1 r e
  · intro res h
    obtain ⟨first, hfirst, hbest1⟩ := (DetectBest_same_run d b s1 t1).2 res h
    have h2snd : (DetectAll d b s2 t2).2 = none := by rw [← hsnd, h]
    have h2 : DetectAll d b s2 t2 = ((DetectAll d b s2 t2).1, none) := by
      rw [← h2snd]
    obtain ⟨best, hbest0, hbest2⟩ := (DetectBest_same_run d b s2 t2).2 _ h2
    refine ⟨first, hfirst, hbest1, best, hbest2, ?_⟩
    obtain ⟨tail1, hall1⟩ := DetectBest_ok d b s1 t1 first hbest1
    obtain ⟨tail2, hall2⟩ := DetectBest_ok d b s2 t2 best hbest2
    have m1 := DetectAll_head_max d b s1 t1 first tail1 hall1
    have m2 := DetectAll_head_max d b s2 t2 best tail2 hall2
    have hconf : best.Confidence = first.Confidence := by
      have a1 := m1.2.2 best m2.1
      have a2 := m2.2.2 first m1.1
      omega
    exact ⟨hconf, fun hties => hties best m2.1 first m1.1 m2.2.1 hconf⟩

/-- C6, amended, on `distinctDetector`, which has no ties: `DetectAll` on one
run and `DetectBest` on a run with the other arrival order and the other sort
outcome; the Result of `DetectBest` is the first element of the slice. -/
theorem DetectBest_agrees_with_DetectAll_witness :
    DetectAll distinctDetector [71, 111] fifoSchedule reversingSorter
        = ([⟨"ISO 8859-1", "fr", 40⟩, ⟨"UTF-8", "", 10⟩], none) ∧
      (∀ o1 ∈ sentOutputs distinctDetector [71, 111],
        ∀ o2 ∈ sentOutputs distinctDetector [71, 111],
          0 < o1.Confidence → o1.Confidence = o2.Confidence → o1 = o2) ∧
      ∃ first, [(⟨"ISO 8859-1", "fr", 40⟩ : Result), ⟨"UTF-8", "", 10⟩][0]? = some first ∧
        DetectBest distinctDetector [71, 111] fifoSchedule reversingSorter
          = some (some first, none) ∧
        ∃ best, DetectBest distinctDetector [71, 111] lifoSchedule stableSorter
            = some (some best, none) ∧
          best.Confidence = first.Confidence ∧ best = first := by
  obtain ⟨first, h1, h2, best, h3, h4, h5⟩ :=
    (DetectBest_agrees_with_DetectAll distinctDetector [71, 111] fifoSchedule lifoSchedule
      reversingSorter stableSorter).2 [⟨"ISO 8859-1", "fr", 40⟩, ⟨"UTF-8", "", 10⟩]
      (by decide)
  exact ⟨by decide, by decide, first, h1, h2, best, h3, h4, h5 (by decide)⟩

end chardet
